import Mathlib

/-!
Issue-key extraction and Jira payload construction of quickstartGitHubActions.

A shallow embedding of `main.go`.

* Go strings are modelled as Lean `String`s, read by the regular-expression
  scan as their sequence of characters (`String.data`), the way Go's `regexp`
  reads a string as its sequence of runes.
* The pattern `[A-Z]{2,}-\d+` is a sequence of character-range nodes; the
  matcher follows the leftmost-first (greedy, backtracking-order) semantics of
  Go's `regexp`, and `FindAllString` is the successive non-overlapping scan.
* A Go slice is `Option (List α)`: `none` is the nil slice, `some l` a non-nil
  slice, so that an absent list and an empty list stay distinct.
* The `issueKeys` map is an association list with unique keys; the order in
  which `range` visits a map is not fixed by Go and is an explicit input.
* The three external steps of `main` (pull-request context, commit listing,
  issue submission) are inputs of the model of `main`.
-/

namespace QuickstartGitHubActions

/-! ## Regular expression `[A-Z]{2,}-\d+` -/

/-- One node of a pattern that is a sequence of character ranges: `one lo hi`
matches a single character in `lo..hi`, `atLeast lo hi n` is the greedy
repetition `[lo-hi]{n,}`. -/
inductive Node where
  | one (lo hi : Char)
  | atLeast (lo hi : Char) (n : Nat)
  deriving Repr, DecidableEq

/-- Membership of a character in the range `lo..hi` (by code point). -/
def inRange (lo hi c : Char) : Bool :=
  decide (lo.toNat ≤ c.toNat) && decide (c.toNat ≤ hi.toNat)

/-- Length of the longest prefix of `s` whose characters are all in `lo..hi`. -/
def runLength (lo hi : Char) : List Char → Nat
  | [] => 0
  | c :: s => if inRange lo hi c then runLength lo hi s + 1 else 0

/-- The repetition counts a greedy `{n,}` tries, in order of preference, when
at most `k` characters are available: `k, k-1, ..., n`. -/
def greedyCounts (n : Nat) : Nat → List Nat
  | 0 => if n = 0 then [0] else []
  | k + 1 => if n ≤ k + 1 then (k + 1) :: greedyCounts n k else []

/-- Anchored match of the node sequence at the head of `s`, with the
preference order of Go's `regexp` (leftmost-first: a greedy repetition takes
as much as it can and gives characters back only when the rest cannot match).
Returns the length of the preferred match. -/
def matchHere : List Node → List Char → Option Nat
  | [], _ => some 0
  | Node.one lo hi :: rest, s =>
    match s with
    | [] => none
    | c :: t => if inRange lo hi c then (matchHere rest t).map (· + 1) else none
  | Node.atLeast lo hi n :: rest, s =>
    (greedyCounts n (runLength lo hi s)).findSome? fun k =>
      (matchHere rest (s.drop k)).map (· + k)

/-- The compiled pattern of `regexp.MustCompile("[A-Z]{2,}-\\d+")`; `\d` is
the ASCII class `[0-9]` in Go's syntax. -/
def re : List Node :=
  [Node.atLeast 'A' 'Z' 2, Node.one '-' '-', Node.atLeast '0' '9' 1]

/-- The scan of `regexp.(*Regexp).allMatches`: `pos` is the index of the head
of the remaining input, `skip` the number of characters still covered by the
match delivered last, `prevEnd` the end of that match. A non-empty match is
delivered and the search resumes at its end; an empty match is delivered
unless it sits at the end of the previous match, and the search resumes one
character further. The result lists the (start, end) index pairs. -/
def allMatches (nodes : List Node) :
    Nat → Nat → Option Nat → List Char → List (Nat × Nat)
  | pos, _, prevEnd, [] =>
    match matchHere nodes [] with
    | some _ => if prevEnd = some pos then [] else [(pos, pos)]
    | none => []
  | pos, skip + 1, prevEnd, _ :: t => allMatches nodes (pos + 1) skip prevEnd t
  | pos, 0, prevEnd, c :: t =>
    match matchHere nodes (c :: t) with
    | none => allMatches nodes (pos + 1) 0 prevEnd t
    | some 0 =>
      (if prevEnd = some pos then [] else [(pos, pos)]) ++
        allMatches nodes (pos + 1) 0 (some pos) t
    | some (m + 1) =>
      (pos, pos + (m + 1)) :: allMatches nodes (pos + 1) m (some (pos + (m + 1))) t

/-- The slice `s[a:b]` of a character sequence. -/
def slice (s : List Char) (a b : Nat) : List Char :=
  (s.drop a).take (b - a)

/-- Model of `re.FindAllString(s, -1)`: the text of every match of the scan. -/
def FindAllString (nodes : List Node) (s : String) : List String :=
  (allMatches nodes 0 0 none s.data).map fun m => String.mk (slice s.data m.1 m.2)


/-! ## Go slices and the `issueKeys` map -/

/-- A Go slice: `none` is the nil slice, `some l` a non-nil slice. -/
abbrev Slice (α : Type) := Option (List α)

/-- Go's `len` on a slice. -/
def Slice.len {α : Type} : Slice α → Nat
  | none => 0
  | some l => l.length

/-- Go's `append(s, x)`. -/
def Slice.append {α : Type} : Slice α → α → Slice α
  | none, x => some [x]
  | some l, x => some (l ++ [x])

/-- A Go `map[string]bool` as an association list with unique keys. -/
abbrev GoMap := List (String × Bool)

/-- The keys of the map, in order of first insertion. -/
def GoMap.keys (m : GoMap) : List String := m.map Prod.fst

/-- The assignment `m[k] = v`. -/
def GoMap.set (m : GoMap) (k : String) (v : Bool) : GoMap :=
  if k ∈ m.keys then m.map (fun e => if e.1 = k then (k, v) else e) else m ++ [(k, v)]

/-- The order in which a `range` loop visits the entries of a map: some
rearrangement of the entries, not fixed by the language. -/
structure RangeOrder where
  visit : GoMap → GoMap
  perm : ∀ m, (visit m).Perm m

/-- The visiting order that follows insertion order. -/
def RangeOrder.insertion : RangeOrder := ⟨id, fun _ => List.Perm.refl _⟩

/-- The visiting order that reverses insertion order. -/
def RangeOrder.reversed : RangeOrder := ⟨List.reverse, fun m => List.reverse_perm m⟩

/-! ## The payload types of `main.go` -/

structure OutwardIssue where
  Key : String
  deriving Repr, DecidableEq

structure LinkType where
  Name : String
  deriving Repr, DecidableEq

structure LinkValue where
  Type_ : LinkType
  OutwardIssues : Slice OutwardIssue
  deriving Repr, DecidableEq

structure LinkAdd where
  Values : Slice LinkValue
  deriving Repr, DecidableEq

structure IssueLink where
  Add : LinkAdd
  deriving Repr, DecidableEq

structure ApproverGroupAdd where
  Name : String
  GroupID : String
  Self : String
  deriving Repr, DecidableEq

structure ApproverGroup where
  Add : ApproverGroupAdd
  deriving Repr, DecidableEq

structure JiraIssueUpdate where
  IssueLinks : Slice IssueLink
  ApproverGroups : Slice ApproverGroup
  deriving Repr, DecidableEq

structure TextNode where
  Type_ : String
  Text : String
  deriving Repr, DecidableEq

structure ParagraphNode where
  Type_ : String
  Content : Slice TextNode
  deriving Repr, DecidableEq

structure Description where
  Type_ : String
  Version : Int
  Content : Slice ParagraphNode
  deriving Repr, DecidableEq

structure IssueTypeRef where
  ID : String
  deriving Repr, DecidableEq

structure ProjectRef where
  Key : String
  deriving Repr, DecidableEq

structure JiraIssueFields where
  Description : Description
  GithubPRID : String
  Type_ : IssueTypeRef
  Project : ProjectRef
  Summary : String
  deriving Repr, DecidableEq

structure JiraIssue where
  Fields : JiraIssueFields
  Update : JiraIssueUpdate
  deriving Repr, DecidableEq

structure IssueResponse where
  ID : String
  Key : String
  Self : String
  deriving Repr, DecidableEq

/-! ## `buildIssuePayload` -/

/-- The function `buildIssuePayload` of `main.go`. -/
def buildIssuePayload
    (jiraIssueDescription jiraIssueSummary jiraIssueTypeID jiraProject githubPRID : String)
    (outwardIssues : Slice OutwardIssue) (approverGroups : Slice ApproverGroup) : JiraIssue :=
  let issue : JiraIssue :=
    { Fields :=
        { Description :=
            { Type_ := "doc"
              Version := 1
              Content := some
                [{ Type_ := "paragraph"
                   Content := some [{ Type_ := "text", Text := jiraIssueDescription }] }] }
          Type_ := { ID := jiraIssueTypeID }
          Project := { Key := jiraProject }
          Summary := jiraIssueSummary
          GithubPRID := githubPRID }
      Update := { IssueLinks := none, ApproverGroups := none } }
  -- Add issue links if there are any issue keys
  let issue : JiraIssue :=
    if outwardIssues.len > 0 then
      { issue with
        Update :=
          { issue.Update with
            IssueLinks := some
              [{ Add :=
                  { Values := some
                      [{ Type_ := { Name := "Blocks" }
                         OutwardIssues := outwardIssues }] } }] } }
    else issue
  -- Add approver groups
  let issue : JiraIssue :=
    if approverGroups.len > 0 then
      { issue with Update := { issue.Update with ApproverGroups := approverGroups } }
    else issue
  issue

/-! ## `main` -/

/-- The environment variables read by `main`. -/
structure Env where
  jiraURL : String
  jiraAPIToken : String
  jiraUser : String
  jiraIssueDescription : String
  jiraIssueSummary : String
  jiraIssueTypeID : String
  jiraProject : String
  token : String

/-- The client configured by `getJIRAClient`. -/
structure Client where
  BaseURL : String
  BasicAuth : String × String
  Headers : List (String × String)
  deriving Repr, DecidableEq

/-- The function `getJIRAClient` of `main.go`. -/
def getJIRAClient (jiraURL jiraUser jiraAPIToken : String) : Client :=
  { BaseURL := jiraURL
    BasicAuth := (jiraUser, jiraAPIToken)
    Headers := [("Accept", "application/json"), ("Content-Type", "application/json")] }

/-- A request sent through the client. -/
structure Request where
  client : Client
  method : String
  path : String
  body : JiraIssue
  deriving Repr, DecidableEq

/-- The answer of the tracking system to a request that went through:
`isErrorState` is `resp.IsErrorState()`, `body` is `resp.String()`, `result`
is what a success response decodes to. -/
structure Response where
  isErrorState : Bool
  body : String
  result : IssueResponse
  deriving Repr, DecidableEq

/-- The outcomes of the external steps of a run: the pull-request number of
the event (`goaction.GetPullRequest`), the commit messages of the pull request
(`gh.PullRequests.ListCommits`), the submission (`Post`), each of which may
fail with an error text, and the order in which the `range` loop visits the
map. -/
structure Externals where
  getPullRequest : Except String Int
  listCommits : Int → Except String (List String)
  post : Request → Except String Response
  order : RangeOrder

/-- How the process ends: `log.Fatalf` exits with a failure status, a return
from `main` ends it normally. -/
inductive Exit where
  | fatal
  | normal
  deriving Repr, DecidableEq

/-- What a run of `main` did: how it ended, the lines it logged, the payload
it built (if it got that far), the requests it sent, and the result decoded
from a success response. -/
structure Run where
  exit : Exit
  log : List String
  payload : Option JiraIssue
  requests : List Request
  result : Option IssueResponse
  deriving Repr, DecidableEq

/-- Go's `strconv.Itoa`: the decimal form of an integer. -/
def Itoa (n : Int) : String :=
  match n with
  | Int.ofNat k => Nat.repr k
  | Int.negSucc k => "-" ++ Nat.repr (k + 1)

/-- Lines 103-111 of `main`: collect the unique issue keys of the commit
messages into the `issueKeys` map. -/
def issueKeys (commits : List String) : GoMap :=
  commits.foldl
    (fun m commitMessage =>
      (FindAllString re commitMessage).foldl (fun m key => m.set key true) m)
    []

/-- Lines 113-123 of `main`: one outward issue per key of the map, in the
order the `range` loop visits them. -/
def outwardIssuesOf (order : RangeOrder) (m : GoMap) : Slice OutwardIssue :=
  (order.visit m).foldl (fun out e => out.append { Key := e.1 }) none

/-- Lines 126-145 of `main`: the approver groups. -/
def approverGroupsOf (jiraURL : String) : Slice ApproverGroup :=
  some
    [{ Add :=
        { Name := "Change Management Board"
          GroupID := "5cd2dde1-4263-4b63-8e48-920e1e672e29"
          Self := jiraURL ++ "rest/api/3/group?groupId=5cd2dde1-4263-4b63-8e48-920e1e672e29" } }]

/-- Lines 103-155 of `main`: the payload built from the pull-request number
and the commit messages. -/
def mainPayload (env : Env) (order : RangeOrder) (number : Int) (commits : List String) :
    JiraIssue :=
  let outwardIssues := outwardIssuesOf order (issueKeys commits)
  let githubPRID := Itoa number
  let approverGroups := approverGroupsOf env.jiraURL
  buildIssuePayload env.jiraIssueDescription env.jiraIssueSummary env.jiraIssueTypeID
    env.jiraProject githubPRID outwardIssues approverGroups

/-- Lines 157-166 of `main`: the creation request, sent through the client
of `getJIRAClient` with the payload as its body. -/
def mainRequest (env : Env) (issue : JiraIssue) : Request :=
  { client := getJIRAClient env.jiraURL env.jiraUser env.jiraAPIToken
    method := "POST"
    path := "/rest/api/3/issue"
    body := issue }

/-- The function `main` of `main.go`, as a function of the environment and of
the outcomes of its external steps. -/
def main (env : Env) (ext : Externals) : Run :=
  match ext.getPullRequest with
  | .error err =>
    { exit := .fatal, log := ["Failed getting PR event information: " ++ err]
      payload := none, requests := [], result := none }
  | .ok number =>
    match ext.listCommits number with
    | .error err =>
      { exit := .fatal, log := ["Failed to fetch commits: " ++ err]
        payload := none, requests := [], result := none }
    | .ok commits =>
      let issue := mainPayload env ext.order number commits
      let request := mainRequest env issue
      match ext.post request with
      | .error err =>
        { exit := .normal, log := ["Failed to create issue: " ++ err]
          payload := some issue, requests := [request], result := none }
      | .ok resp =>
        if resp.isErrorState then
          { exit := .normal, log := ["Error response: " ++ resp.body]
            payload := some issue, requests := [request], result := none }
        else
          { exit := .normal, log := ["Issue created: " ++ resp.result.Self]
            payload := some issue, requests := [request], result := some resp.result }

/-! ## Concrete inputs -/

/-- An environment for the worked scenarios. -/
def exampleEnv : Env :=
  { jiraURL := "https://jira.example/"
    jiraAPIToken := "secret"
    jiraUser := "bot"
    jiraIssueDescription := "Release approval"
    jiraIssueSummary := "Approve release"
    jiraIssueTypeID := "10001"
    jiraProject := "CM"
    token := "gh" }

/-- The commit messages of scenario A. -/
def scenarioA : List String :=
  ["fix ABC-123 bug", "unrelated change", "ABC-123 and XYZ-9 together"]

/-- The commit messages of scenario B. -/
def scenarioB : List String := ["no ticket here"]

/-- Scenario C: the context and the commit list resolve, the submission gets
an application-level error response. -/
def scenarioC : Externals :=
  { getPullRequest := .ok 7
    listCommits := fun _ => .ok scenarioA
    post := fun _ =>
      .ok { isErrorState := true, body := "bad request", result := ⟨"", "", ""⟩ }
    order := RangeOrder.insertion }

/-! ## The pattern in the words of the specification -/

/-- An uppercase ASCII letter, `A` to `Z`. -/
def IsUpperAZ (c : Char) : Prop := 'A'.toNat ≤ c.toNat ∧ c.toNat ≤ 'Z'.toNat

/-- A decimal digit, `0` to `9`. -/
def IsDecDigit (c : Char) : Prop := '0'.toNat ≤ c.toNat ∧ c.toNat ≤ '9'.toNat

/-- The language of `[A-Z]{2,}-[0-9]+`: two or more uppercase ASCII letters,
a hyphen, one or more decimal digits. -/
def IsIssueKey (k : List Char) : Prop :=
  ∃ letters digits, k = letters ++ '-' :: digits ∧
    2 ≤ letters.length ∧ (∀ c ∈ letters, IsUpperAZ c) ∧
    1 ≤ digits.length ∧ (∀ c ∈ digits, IsDecDigit c)

/-- The text `key` stands in `s` between `pre` and `post` as a maximal
occurrence of the pattern: it is in the language, no uppercase letter stands
right before it and no digit right after it. -/
def MaximalOccurrence (s pre key post : List Char) : Prop :=
  s = pre ++ key ++ post ∧ IsIssueKey key ∧
    (∀ c, pre.getLast? = some c → ¬ IsUpperAZ c) ∧
    (∀ c, post.head? = some c → ¬ IsDecDigit c)

/-! ## Lemmas on the matcher -/

theorem inRange_upper (c : Char) : inRange 'A' 'Z' c = true ↔ IsUpperAZ c := by
  simp [inRange, IsUpperAZ]

theorem inRange_digit (c : Char) : inRange '0' '9' c = true ↔ IsDecDigit c := by
  simp [inRange, IsDecDigit]

theorem inRange_hyphen (c : Char) : inRange '-' '-' c = true ↔ c = '-' := by
  constructor
  · intro h
    simp only [inRange, Bool.and_eq_true, decide_eq_true_eq] at h
    have h1 : c.toNat = '-'.toNat := by omega
    have h2 : Char.ofNat c.toNat = Char.ofNat '-'.toNat := by rw [h1]
    simpa using h2
  · rintro rfl
    decide

theorem not_upper_hyphen : ¬ IsUpperAZ '-' := by unfold IsUpperAZ; decide

theorem not_upper_of_digit {c : Char} (h : IsDecDigit c) : ¬ IsUpperAZ c := by
  intro hu
  have h1 : c.toNat ≤ 57 := h.2
  have h2 : 65 ≤ c.toNat := hu.1
  omega

theorem runLength_le (lo hi : Char) (s : List Char) : runLength lo hi s ≤ s.length := by
  induction s with
  | nil => simp [runLength]
  | cons c t ih =>
    simp only [runLength]
    split
    · simp; omega
    · simp

theorem take_runLength_mem (lo hi : Char) (s : List Char) :
    ∀ c ∈ s.take (runLength lo hi s), inRange lo hi c = true := by
  induction s with
  | nil => simp [runLength]
  | cons d t ih =>
    intro c hc
    simp only [runLength] at hc
    by_cases hd : inRange lo hi d = true
    · simp only [hd, if_true, List.take_succ_cons, List.mem_cons] at hc
      rcases hc with rfl | hc
      · exact hd
      · exact ih c hc
    · simp [hd] at hc

theorem drop_runLength_head (lo hi : Char) (s : List Char) :
    ∀ c, (s.drop (runLength lo hi s)).head? = some c → inRange lo hi c = false := by
  induction s with
  | nil => simp [runLength]
  | cons d t ih =>
    intro c hc
    simp only [runLength] at hc
    by_cases hd : inRange lo hi d = true
    · simp only [hd, if_true, List.drop_succ_cons] at hc
      exact ih c hc
    · simp only [hd] at hc
      simp at hc
      subst hc
      simpa using hd

theorem runLength_append (lo hi : Char) (l rest : List Char)
    (hl : ∀ c ∈ l, inRange lo hi c = true)
    (hr : ∀ c, rest.head? = some c → inRange lo hi c = false) :
    runLength lo hi (l ++ rest) = l.length := by
  induction l with
  | nil =>
    cases rest with
    | nil => simp [runLength]
    | cons d t =>
      have := hr d (by simp)
      simp [runLength, this]
  | cons d t ih =>
    have hd := hl d (by simp)
    have := ih (fun c hc => hl c (by simp [hc]))
    simp [runLength, hd, this]

theorem drop_lt_runLength (lo hi : Char) :
    ∀ (s : List Char) (j : Nat), j < runLength lo hi s →
      ∃ c t, s.drop j = c :: t ∧ inRange lo hi c = true := by
  intro s
  induction s with
  | nil => intro j hj; simp [runLength] at hj
  | cons d t ih =>
    intro j hj
    simp only [runLength] at hj
    by_cases hd : inRange lo hi d = true
    · cases j with
      | zero => exact ⟨d, t, rfl, hd⟩
      | succ j =>
        simp only [hd, if_true] at hj
        exact ih j (by omega)
    · simp [hd] at hj

theorem greedyCounts_mem (n : Nat) : ∀ (k j : Nat), j ∈ greedyCounts n k → n ≤ j ∧ j ≤ k := by
  intro k
  induction k with
  | zero =>
    intro j hj
    simp only [greedyCounts] at hj
    split at hj
    · simp at hj; omega
    · simp at hj
  | succ k ih =>
    intro j hj
    simp only [greedyCounts] at hj
    split at hj
    · simp only [List.mem_cons] at hj
      rcases hj with rfl | hj
      · omega
      · have := ih j hj
        omega
    · simp at hj

theorem greedyCounts_of_le {n k : Nat} (h : n ≤ k) :
    ∃ tl, greedyCounts n k = k :: tl ∧ ∀ j ∈ tl, n ≤ j ∧ j < k := by
  cases k with
  | zero =>
    have : n = 0 := by omega
    subst this
    exact ⟨[], by simp [greedyCounts], by simp⟩
  | succ k =>
    refine ⟨greedyCounts n k, by simp [greedyCounts, h], ?_⟩
    intro j hj
    have := greedyCounts_mem n k j hj
    omega

theorem greedyCounts_of_lt {n k : Nat} (h : k < n) : greedyCounts n k = [] := by
  cases k with
  | zero => simp [greedyCounts]; omega
  | succ k => simp [greedyCounts]; omega

theorem matchHere_digits (t : List Char) :
    matchHere [Node.atLeast '0' '9' 1] t =
      if 1 ≤ runLength '0' '9' t then some (runLength '0' '9' t) else none := by
  simp only [matchHere]
  by_cases h : 1 ≤ runLength '0' '9' t
  · obtain ⟨tl, htl, -⟩ := greedyCounts_of_le h
    rw [htl]
    simp [List.findSome?, h]
  · rw [greedyCounts_of_lt (by omega)]
    simp [h]

theorem matchHere_hyphen_digits (s : List Char) :
    matchHere [Node.one '-' '-', Node.atLeast '0' '9' 1] s =
      match s with
      | [] => none
      | c :: t =>
        if c = '-' ∧ 1 ≤ runLength '0' '9' t then some (runLength '0' '9' t + 1) else none := by
  cases s with
  | nil => simp [matchHere]
  | cons c t =>
    have hd := matchHere_digits t
    simp only [matchHere] at hd ⊢
    rw [hd]
    by_cases hc : c = '-'
    · subst hc
      by_cases h : 1 ≤ runLength '0' '9' t
      · simp [h, (inRange_hyphen '-').2 rfl]
      · simp [h]
    · have : ¬ inRange '-' '-' c = true := fun h => hc ((inRange_hyphen c).1 h)
      simp [hc, this]

theorem matchHere_re_unfold (s : List Char) :
    matchHere re s =
      (greedyCounts 2 (runLength 'A' 'Z' s)).findSome? fun k =>
        (matchHere [Node.one '-' '-', Node.atLeast '0' '9' 1] (s.drop k)).map (· + k) := by
  simp only [re, matchHere]

/-- A key followed by a non-digit is matched at its head, in full. -/
theorem matchHere_re_of_key (key post : List Char) (hk : IsIssueKey key)
    (hp : ∀ c, post.head? = some c → ¬ IsDecDigit c) :
    matchHere re (key ++ post) = some key.length := by
  obtain ⟨ls, ds, rfl, hl2, hls, hd1, hds⟩ := hk
  have hrunL : runLength 'A' 'Z' (ls ++ '-' :: ds ++ post) = ls.length := by
    rw [List.append_assoc]
    apply runLength_append
    · intro c hc
      exact (inRange_upper c).2 (hls c hc)
    · intro c hc
      simp only [List.cons_append, List.head?_cons, Option.some.injEq] at hc
      subst hc
      cases h : inRange 'A' 'Z' '-'
      · rfl
      · exact absurd ((inRange_upper _).1 h) not_upper_hyphen
  have hrunD : runLength '0' '9' (ds ++ post) = ds.length := by
    apply runLength_append
    · intro c hc
      exact (inRange_digit c).2 (hds c hc)
    · intro c hc
      cases h : inRange '0' '9' c
      · rfl
      · exact absurd ((inRange_digit _).1 h) (hp c hc)
  rw [matchHere_re_unfold, hrunL]
  obtain ⟨tl, htl, -⟩ := greedyCounts_of_le hl2
  rw [htl]
  have hdrop : List.drop ls.length (ls ++ '-' :: ds ++ post) = '-' :: (ds ++ post) := by
    rw [List.append_assoc, List.drop_left]
    rfl
  simp only [List.findSome?, hdrop, matchHere_hyphen_digits, hrunD]
  simp [hd1]
  omega

/-- Whatever the matcher returns at the head of `s` is a key followed by a
non-digit. -/
theorem matchHere_re_some (s : List Char) (n : Nat) (h : matchHere re s = some n) :
    ∃ key post, s = key ++ post ∧ key.length = n ∧ IsIssueKey key ∧
      (∀ c, post.head? = some c → ¬ IsDecDigit c) := by
  rw [matchHere_re_unfold] at h
  obtain ⟨j, hj, hfj⟩ := List.exists_of_findSome?_eq_some h
  have hjb := greedyCounts_mem _ _ _ hj
  rw [matchHere_hyphen_digits] at hfj
  cases hdj : s.drop j with
  | nil => simp [hdj] at hfj
  | cons c t =>
    rw [hdj] at hfj
    simp only [Option.map_eq_some'] at hfj
    obtain ⟨m, hm, hmn⟩ := hfj
    split at hm
    · rename_i hcond
      obtain ⟨hc, hd1⟩ := hcond
      subst hc
      have hjk : j = runLength 'A' 'Z' s := by
        by_contra hne
        have hlt : j < runLength 'A' 'Z' s := by omega
        obtain ⟨c', t', hdrop', hup⟩ := drop_lt_runLength 'A' 'Z' s j hlt
        rw [hdj] at hdrop'
        simp only [List.cons.injEq] at hdrop'
        rw [← hdrop'.1] at hup
        exact not_upper_hyphen ((inRange_upper _).1 hup)
      refine ⟨s.take j ++ '-' :: t.take (runLength '0' '9' t), t.drop (runLength '0' '9' t),
        ?_, ?_, ?_, ?_⟩
      · conv_lhs => rw [← List.take_append_drop j s, hdj]
        simp [List.take_append_drop]
      · have h1 : (s.take j).length = j := by
          rw [List.length_take]
          have := runLength_le 'A' 'Z' s
          omega
        have h2 : (t.take (runLength '0' '9' t)).length = runLength '0' '9' t := by
          rw [List.length_take]
          have := runLength_le '0' '9' t
          omega
        simp only [Option.some.injEq] at hm
        simp only [List.length_append, List.length_cons, h1, h2]
        omega
      · refine ⟨s.take j, t.take (runLength '0' '9' t), rfl, ?_, ?_, ?_, ?_⟩
        · rw [List.length_take]
          have := runLength_le 'A' 'Z' s
          omega
        · intro c hc
          rw [hjk] at hc
          exact (inRange_upper c).1 (take_runLength_mem 'A' 'Z' s c hc)
        · rw [List.length_take]
          have := runLength_le '0' '9' t
          omega
        · intro c hc
          exact (inRange_digit c).1 (take_runLength_mem '0' '9' t c hc)
      · intro c hc hdig
        have := drop_runLength_head '0' '9' t c hc
        rw [(inRange_digit c).2 hdig] at this
        exact Bool.noConfusion this
    · simp at hm

/-! ## Lemmas on keys -/

theorem IsIssueKey.head_upper {key : List Char} (hk : IsIssueKey key) :
    ∃ u rest, key = u :: rest ∧ IsUpperAZ u := by
  obtain ⟨ls, ds, rfl, hl2, hls, -, -⟩ := hk
  cases ls with
  | nil => simp at hl2
  | cons u ls => exact ⟨u, ls ++ '-' :: ds, rfl, hls u (by simp)⟩

theorem IsIssueKey.four_le_length {key : List Char} (hk : IsIssueKey key) :
    4 ≤ key.length := by
  obtain ⟨ls, ds, rfl, hl2, -, hd1, -⟩ := hk
  simp only [List.length_append, List.length_cons]
  omega

theorem IsIssueKey.getLast_digit {key : List Char} (hk : IsIssueKey key)
    (front : List Char) (c : Char) (hc : (front ++ key).getLast? = some c) :
    IsDecDigit c := by
  obtain ⟨ls, ds, rfl, -, -, hd1, hds⟩ := hk
  have hne : ds ≠ [] := by
    intro h
    simp [h] at hd1
  have h1 : front ++ (ls ++ '-' :: ds) = (front ++ ls ++ ['-']) ++ ds := by simp
  rw [h1, List.getLast?_append_of_ne_nil _ hne] at hc
  exact hds c (List.mem_of_getLast?_eq_some hc)

theorem IsIssueKey.cons_upper {key : List Char} (hk : IsIssueKey key) {c : Char}
    (hc : IsUpperAZ c) : IsIssueKey (c :: key) := by
  obtain ⟨ls, ds, rfl, hl2, hls, hd1, hds⟩ := hk
  refine ⟨c :: ls, ds, rfl, ?_, ?_, hd1, hds⟩
  · simp only [List.length_cons]
    omega
  · intro x hx
    simp only [List.mem_cons] at hx
    rcases hx with rfl | hx
    · exact hc
    · exact hls x hx

theorem matchHere_re_nil : matchHere re [] = none := by decide

theorem matchHere_re_ne_zero (s : List Char) : matchHere re s ≠ some 0 := by
  intro h
  obtain ⟨key, post, -, hlen, hk, -⟩ := matchHere_re_some s 0 h
  have := hk.four_le_length
  omega

/-- No match right after an uppercase letter at which no match starts. -/
theorem matchHere_re_after_upper (c : Char) (t : List Char) (hc : IsUpperAZ c)
    (h : matchHere re (c :: t) = none) : matchHere re t = none := by
  cases ht : matchHere re t with
  | none => rfl
  | some n =>
    obtain ⟨key, post, rfl, -, hk, hp⟩ := matchHere_re_some t n ht
    have := matchHere_re_of_key (c :: key) post (hk.cons_upper hc) hp
    rw [List.cons_append, h] at this
    exact Option.noConfusion this

/-- A maximal occurrence never starts inside an earlier key. -/
theorem no_overlap (key post pre key' post' : List Char)
    (h : key ++ post = pre ++ key' ++ post') (hk : IsIssueKey key) (hk' : IsIssueKey key')
    (hpre : ∀ c, pre.getLast? = some c → ¬ IsUpperAZ c) :
    pre = [] ∨ ∃ pre', pre = key ++ pre' := by
  by_cases hnil : pre = []
  · exact Or.inl hnil
  right
  rw [List.append_assoc] at h
  rcases List.append_eq_append_iff.1 h with ⟨a', hpre', -⟩ | ⟨c', hkey, hrest⟩
  · exact ⟨a', hpre'⟩
  have hlast : ∃ x, pre.getLast? = some x := by
    cases hg : pre.getLast? with
    | none => exact absurd (List.getLast?_eq_none_iff.1 hg) hnil
    | some x => exact ⟨x, rfl⟩
  obtain ⟨x, hx⟩ := hlast
  obtain ⟨ls, ds, hkeyeq, -, hls, -, hds⟩ := hk
  rw [hkeyeq] at hkey
  rcases List.append_eq_append_iff.1 hkey with ⟨a2, hpre2, hds'⟩ | ⟨c2, hlseq, -⟩
  · cases c' with
    | nil =>
      refine ⟨[], ?_⟩
      rw [hkeyeq, hkey]
      simp
    | cons y c' =>
      exfalso
      obtain ⟨u, rest, hu, hup⟩ := hk'.head_upper
      rw [hu] at hrest
      simp only [List.cons_append, List.cons.injEq] at hrest
      have hy : y ∈ '-' :: ds := by
        rw [hds']
        simp
      have huy : u = y := hrest.1
      subst huy
      simp only [List.mem_cons] at hy
      rcases hy with rfl | hy
      · exact not_upper_hyphen hup
      · exact not_upper_of_digit (hds u hy) hup
  · exfalso
    have hxmem : x ∈ ls := by
      rw [hlseq]
      exact List.mem_append_left _ (List.mem_of_getLast?_eq_some hx)
    exact hpre x hx (hls x hxmem)

/-! ## Lemmas on the scan -/

theorem allMatches_skip (nodes : List Node) :
    ∀ (s : List Char) (k pos : Nat) (pe : Option Nat), k ≤ s.length →
      allMatches nodes pos k pe s = allMatches nodes (pos + k) 0 pe (s.drop k) := by
  intro s
  induction s with
  | nil =>
    intro k pos pe hk
    have : k = 0 := by simpa using hk
    subst this
    rfl
  | cons c t ih =>
    intro k pos pe hk
    cases k with
    | zero => rfl
    | succ k =>
      rw [allMatches, ih k (pos + 1) pe (by simpa using hk)]
      simp only [List.drop_succ_cons]
      congr 1
      omega

theorem allMatches_re_nil (pos skip : Nat) (pe : Option Nat) :
    allMatches re pos skip pe [] = [] := by
  rw [allMatches, matchHere_re_nil]

theorem allMatches_re_none (pos : Nat) (pe : Option Nat) (c : Char) (t : List Char)
    (h : matchHere re (c :: t) = none) :
    allMatches re pos 0 pe (c :: t) = allMatches re (pos + 1) 0 pe t := by
  rw [allMatches, h]

theorem allMatches_re_some (pos : Nat) (pe : Option Nat) (key post : List Char)
    (hk : IsIssueKey key) (h : matchHere re (key ++ post) = some key.length) :
    allMatches re pos 0 pe (key ++ post) =
      (pos, pos + key.length) ::
        allMatches re (pos + key.length) 0 (some (pos + key.length)) post := by
  obtain ⟨u, rest, rfl, -⟩ := hk.head_upper
  simp only [List.cons_append, List.length_cons] at h ⊢
  rw [allMatches, h]
  simp only
  rw [allMatches_skip re (rest ++ post) rest.length (pos + 1) _ (by simp)]
  simp only [List.drop_left]
  congr 2
  omega

/-- The scan started at the head of `s`, with `front` the text before it,
delivers exactly the maximal occurrences of keys in `s`, provided no match
starts at the head of `s` when `front` ends in an uppercase letter. -/
theorem allMatches_re_iff :
    ∀ (n : Nat) (s : List Char), s.length ≤ n →
      ∀ (pos : Nat) (pe : Option Nat) (front : List Char),
        (∀ c, front.getLast? = some c → IsUpperAZ c → matchHere re s = none) →
        ∀ a b, (a, b) ∈ allMatches re pos 0 pe s ↔
          ∃ pre key post, s = pre ++ key ++ post ∧ a = pos + pre.length ∧
            b = a + key.length ∧ IsIssueKey key ∧
            (∀ c, (front ++ pre).getLast? = some c → ¬ IsUpperAZ c) ∧
            (∀ c, post.head? = some c → ¬ IsDecDigit c) := by
  intro n
  induction n with
  | zero =>
    intro s hs pos pe front _ a b
    have hs' : s = [] := List.eq_nil_of_length_eq_zero (by omega)
    subst hs'
    rw [allMatches_re_nil]
    constructor
    · intro h
      simp at h
    · rintro ⟨pre, key, post, h, -, -, hk, -⟩
      have := hk.four_le_length
      have hl := congrArg List.length h
      simp only [List.length_nil, List.length_append] at hl
      omega
  | succ n ih =>
    intro s hs pos pe front hfront a b
    cases s with
    | nil =>
      rw [allMatches_re_nil]
      constructor
      · intro h
        simp at h
      · rintro ⟨pre, key, post, h, -, -, hk, -⟩
        have := hk.four_le_length
        have hl := congrArg List.length h
        simp only [List.length_nil, List.length_append] at hl
        omega
    | cons c t =>
      have ht : t.length ≤ n := by simpa using hs
      cases hm : matchHere re (c :: t) with
      | none =>
        rw [allMatches_re_none pos pe c t hm]
        have hfront' : ∀ x, (front ++ [c]).getLast? = some x → IsUpperAZ x →
            matchHere re t = none := by
          intro x hx hup
          rw [List.getLast?_append_of_ne_nil _ (List.cons_ne_nil c [])] at hx
          simp only [List.getLast?_singleton, Option.some.injEq] at hx
          subst hx
          exact matchHere_re_after_upper _ t hup hm
        rw [ih t ht (pos + 1) pe (front ++ [c]) hfront' a b]
        constructor
        · rintro ⟨pre, key, post, h, ha, hb, hk, hpre, hpost⟩
          refine ⟨c :: pre, key, post, by simp [h], ?_, hb, hk, ?_, hpost⟩
          · simp only [List.length_cons]
            omega
          · simpa using hpre
        · rintro ⟨pre, key, post, h, ha, hb, hk, hpre, hpost⟩
          cases pre with
          | nil =>
            exfalso
            have := matchHere_re_of_key key post hk hpost
            simp only [List.nil_append] at h
            rw [← h, hm] at this
            exact Option.noConfusion this
          | cons c' pre =>
            simp only [List.cons_append, List.cons.injEq] at h
            obtain ⟨hc, h⟩ := h
            subst hc
            refine ⟨pre, key, post, h, ?_, hb, hk, ?_, hpost⟩
            · simp only [List.length_cons] at ha
              omega
            · simpa using hpre
      | some m =>
        obtain ⟨key, post, hs', hlen, hk, hp⟩ := matchHere_re_some (c :: t) m hm
        have hk4 := hk.four_le_length
        have hpl : post.length ≤ n := by
          have hl := congrArg List.length hs'
          simp only [List.length_cons, List.length_append] at hl
          omega
        rw [hs'] at hm hfront ⊢
        rw [← hlen] at hm
        rw [allMatches_re_some pos pe key post hk hm]
        have hfront' : ∀ x, (front ++ key).getLast? = some x → IsUpperAZ x →
            matchHere re post = none := by
          intro x hx hup
          exact absurd hup (not_upper_of_digit (hk.getLast_digit front x hx))
        have hih := ih post hpl (pos + key.length) (some (pos + key.length))
          (front ++ key) hfront' a b
        rw [List.mem_cons, hih]
        constructor
        · rintro (h | ⟨pre, key', post', h, ha, hb, hk', hpre, hpost⟩)
          · simp only [Prod.mk.injEq] at h
            refine ⟨[], key, post, by simp, by simp [h.1], by omega, hk, ?_, hp⟩
            intro x hx hup
            simp only [List.append_nil] at hx
            have := hfront x hx hup
            rw [hm] at this
            exact Option.noConfusion this
          · refine ⟨key ++ pre, key', post', by simp [h], ?_, hb, hk', ?_, hpost⟩
            · simp only [List.length_append]
              omega
            · simpa using hpre
        · rintro ⟨pre, key', post', h, ha, hb, hk', hpre, hpost⟩
          have hpre0 : ∀ x, pre.getLast? = some x → ¬ IsUpperAZ x := by
            intro x hx
            apply hpre x
            cases pre with
            | nil => simp at hx
            | cons y ys =>
              rw [List.getLast?_append_of_ne_nil _ (List.cons_ne_nil y ys)]
              exact hx
          rcases no_overlap key post pre key' post' h hk hk' hpre0 with hnil | ⟨pre', hpre'⟩
          · left
            subst hnil
            simp only [List.nil_append] at h
            have h2 := matchHere_re_of_key key' post' hk' hpost
            rw [← h, hm] at h2
            simp only [Option.some.injEq] at h2
            simp only [List.length_nil] at ha
            simp only [Prod.mk.injEq]
            omega
          · right
            subst hpre'
            refine ⟨pre', key', post', ?_, ?_, hb, hk', ?_, hpost⟩
            · simp only [List.append_assoc] at h
              have h3 := List.append_cancel_left h
              simp only [List.append_assoc]
              exact h3
            · simp only [List.length_append] at ha
              omega
            · simpa using hpre

theorem slice_middle (pre key post : List Char) :
    slice (pre ++ key ++ post) pre.length (pre.length + key.length) = key := by
  simp [slice, List.append_assoc, List.drop_left, List.take_left]

/-- The scan of a whole message delivers exactly the maximal occurrences. -/
theorem allMatches_re_maximal (s : List Char) (a b : Nat) :
    (a, b) ∈ allMatches re 0 0 none s ↔
      ∃ pre key post, MaximalOccurrence s pre key post ∧ pre.length = a ∧
        a + key.length = b ∧ slice s a b = key := by
  rw [allMatches_re_iff s.length s (Nat.le_refl _) 0 none [] (by simp) a b]
  constructor
  · rintro ⟨pre, key, post, h, ha, hb, hk, hpre, hpost⟩
    refine ⟨pre, key, post, ⟨h, hk, by simpa using hpre, hpost⟩, by omega, by omega, ?_⟩
    have ha' : a = pre.length := by omega
    rw [h, ha', hb, ha']
    exact slice_middle pre key post
  · rintro ⟨pre, key, post, ⟨h, hk, hpre, hpost⟩, ha, hb, -⟩
    exact ⟨pre, key, post, h, by omega, by omega, hk, by simpa using hpre, hpost⟩

theorem mem_FindAllString (msg k : String) :
    k ∈ FindAllString re msg ↔ ∃ pre post, MaximalOccurrence msg.data pre k.data post := by
  simp only [FindAllString, List.mem_map, Prod.exists]
  constructor
  · rintro ⟨a, b, hab, rfl⟩
    obtain ⟨pre, key, post, hmax, -, -, hsl⟩ := (allMatches_re_maximal msg.data a b).1 hab
    exact ⟨pre, post, by rw [hsl]; exact hmax⟩
  · rintro ⟨pre, post, hmax⟩
    refine ⟨pre.length, pre.length + k.data.length, ?_, ?_⟩
    · refine (allMatches_re_maximal msg.data _ _).2 ⟨pre, k.data, post, hmax, rfl, rfl, ?_⟩
      rw [hmax.1]
      exact slice_middle pre k.data post
    · have : slice msg.data pre.length (pre.length + k.data.length) = k.data := by
        rw [hmax.1]
        exact slice_middle pre k.data post
      rw [this]

/-! ## Lemmas on the map and on slices -/

theorem GoMap.keys_set (m : GoMap) (k : String) (v : Bool) :
    (m.set k v).keys = if k ∈ m.keys then m.keys else m.keys ++ [k] := by
  unfold GoMap.set
  split
  · simp only [GoMap.keys, List.map_map]
    apply List.map_congr_left
    intro e _
    simp only [Function.comp]
    split
    · rename_i he
      exact he.symm
    · rfl
  · simp [GoMap.keys]

theorem GoMap.mem_keys_set (m : GoMap) (k : String) (v : Bool) (x : String) :
    x ∈ (m.set k v).keys ↔ x ∈ m.keys ∨ x = k := by
  rw [GoMap.keys_set]
  split
  · rename_i hk
    constructor
    · exact Or.inl
    · rintro (h | rfl)
      · exact h
      · exact hk
  · simp

theorem GoMap.nodup_keys_set (m : GoMap) (k : String) (v : Bool) (h : m.keys.Nodup) :
    (m.set k v).keys.Nodup := by
  rw [GoMap.keys_set]
  split
  · exact h
  · rename_i hk
    rw [List.nodup_append]
    refine ⟨h, List.nodup_singleton k, ?_⟩
    intro x hx hx'
    simp only [List.mem_singleton] at hx'
    subst hx'
    exact hk hx

theorem foldl_set_keys (ks : List String) :
    ∀ m : GoMap, m.keys.Nodup →
      ((ks.foldl (fun m key => m.set key true) m).keys.Nodup ∧
        ∀ x, x ∈ (ks.foldl (fun m key => m.set key true) m).keys ↔ x ∈ m.keys ∨ x ∈ ks) := by
  induction ks with
  | nil => intro m hm; simp [hm]
  | cons k ks ih =>
    intro m hm
    obtain ⟨h1, h2⟩ := ih (m.set k true) (GoMap.nodup_keys_set m k true hm)
    refine ⟨h1, ?_⟩
    intro x
    simp only [List.foldl_cons, h2, GoMap.mem_keys_set, List.mem_cons]
    tauto

theorem foldl_commits_keys (commits : List String) :
    ∀ m : GoMap, m.keys.Nodup →
      ((commits.foldl (fun m commitMessage =>
          (FindAllString re commitMessage).foldl (fun m key => m.set key true) m) m).keys.Nodup ∧
        ∀ x, x ∈ (commits.foldl (fun m commitMessage =>
          (FindAllString re commitMessage).foldl (fun m key => m.set key true) m) m).keys ↔
            x ∈ m.keys ∨ ∃ msg ∈ commits, x ∈ FindAllString re msg) := by
  induction commits with
  | nil => intro m hm; simp [hm]
  | cons c cs ih =>
    intro m hm
    obtain ⟨h1, h2⟩ := foldl_set_keys (FindAllString re c) m hm
    obtain ⟨h3, h4⟩ := ih _ h1
    refine ⟨h3, ?_⟩
    intro x
    simp only [List.foldl_cons, h4, h2, List.mem_cons, exists_eq_or_imp]
    tauto

theorem issueKeys_nodup (commits : List String) : (issueKeys commits).keys.Nodup :=
  (foldl_commits_keys commits [] (by simp [GoMap.keys])).1

theorem mem_issueKeys (commits : List String) (x : String) :
    x ∈ (issueKeys commits).keys ↔ ∃ msg ∈ commits, x ∈ FindAllString re msg := by
  have := (foldl_commits_keys commits [] (by simp [GoMap.keys])).2 x
  simpa [GoMap.keys] using this

theorem foldl_append_some (es : GoMap) :
    ∀ l : List OutwardIssue,
      es.foldl (fun out e => Slice.append out { Key := e.1 }) (some l) =
        some (l ++ es.map fun e => { Key := e.1 }) := by
  induction es with
  | nil => intro l; simp
  | cons e es ih =>
    intro l
    rw [List.foldl_cons]
    show es.foldl (fun out e => Slice.append out (OutwardIssue.mk e.1))
      (some (l ++ [OutwardIssue.mk e.1])) = _
    rw [ih]
    simp

theorem outwardIssuesOf_eq (order : RangeOrder) (m : GoMap) :
    outwardIssuesOf order m =
      if order.visit m = [] then none
      else some ((order.visit m).map fun e => { Key := e.1 }) := by
  unfold outwardIssuesOf
  cases h : order.visit m with
  | nil => simp
  | cons e es =>
    rw [List.foldl_cons]
    show es.foldl (fun out e => Slice.append out (OutwardIssue.mk e.1))
      (some [OutwardIssue.mk e.1]) = _
    rw [foldl_append_some]
    simp

theorem issueKeys_eq_nil (commits : List String)
    (h : ∀ msg ∈ commits, FindAllString re msg = []) : issueKeys commits = [] := by
  have hk : (issueKeys commits).keys = [] := by
    apply List.eq_nil_iff_forall_not_mem.2
    intro x hx
    obtain ⟨msg, hmsg, hmem⟩ := (mem_issueKeys commits x).1 hx
    rw [h msg hmsg] at hmem
    simp at hmem
  simpa [GoMap.keys] using hk

theorem outwardIssuesOf_nil (order : RangeOrder) : outwardIssuesOf order [] = none := by
  rw [outwardIssuesOf_eq]
  have : order.visit [] = [] := List.Perm.eq_nil (order.perm [])
  simp [this]

theorem buildIssuePayload_links (d s t p g : String) (outwardIssues : Slice OutwardIssue)
    (ag : Slice ApproverGroup) :
    (buildIssuePayload d s t p g outwardIssues ag).Update.IssueLinks =
      if outwardIssues.len > 0 then
        some [{ Add :=
                { Values :=
                    some [{ Type_ := { Name := "Blocks" }, OutwardIssues := outwardIssues }] } }]
      else none := by
  unfold buildIssuePayload
  by_cases h1 : outwardIssues.len > 0 <;> by_cases h2 : ag.len > 0 <;> simp [h1, h2]

theorem buildIssuePayload_groups (d s t p g : String) (outwardIssues : Slice OutwardIssue)
    (ag : Slice ApproverGroup) :
    (buildIssuePayload d s t p g outwardIssues ag).Update.ApproverGroups =
      if ag.len > 0 then ag else none := by
  unfold buildIssuePayload
  by_cases h1 : outwardIssues.len > 0 <;> by_cases h2 : ag.len > 0 <;> simp [h1, h2]

theorem buildIssuePayload_fields (d s t p g : String) (outwardIssues : Slice OutwardIssue)
    (ag : Slice ApproverGroup) :
    (buildIssuePayload d s t p g outwardIssues ag).Fields =
      { Description :=
          { Type_ := "doc"
            Version := 1
            Content :=
              some [{ Type_ := "paragraph"
                      Content := some [{ Type_ := "text", Text := d }] }] }
        Type_ := { ID := t }
        Project := { Key := p }
        Summary := s
        GithubPRID := g } := by
  unfold buildIssuePayload
  by_cases h1 : outwardIssues.len > 0 <;> by_cases h2 : ag.len > 0 <;> simp [h1, h2]

theorem approverGroups_groups_eq (env : Env) (order : RangeOrder) (n : Int)
    (commits : List String) :
    (mainPayload env order n commits).Update.ApproverGroups =
      some [{ Add :=
              { Name := "Change Management Board"
                GroupID := "5cd2dde1-4263-4b63-8e48-920e1e672e29"
                Self := env.jiraURL ++
                  "rest/api/3/group?groupId=5cd2dde1-4263-4b63-8e48-920e1e672e29" } }] := by
  unfold mainPayload
  simp only
  rw [buildIssuePayload_groups]
  simp [approverGroupsOf, Slice.len]

/-! ## Verified properties -/

/-- C1: the key set collected by the extraction loop has no duplicates, holds
exactly the matches of the pattern over all messages, that is exactly the
texts that stand in some message as a maximal occurrence of a string of
`[A-Z]{2,}-[0-9]+`, and so depends neither on the order nor on the repetition
of messages; scenario A gives the set of `ABC-123` and `XYZ-9`. -/
theorem issueKeys_exact (commits : List String) :
    (issueKeys commits).keys.Nodup ∧
    (∀ k, k ∈ (issueKeys commits).keys ↔ ∃ msg ∈ commits, k ∈ FindAllString re msg) ∧
    (∀ k, k ∈ (issueKeys commits).keys ↔
      ∃ msg ∈ commits, ∃ pre post, MaximalOccurrence msg.data pre k.data post) ∧
    (∀ commits' : List String, (∀ msg, msg ∈ commits' ↔ msg ∈ commits) →
      (issueKeys commits').keys.Perm (issueKeys commits).keys) ∧
    (issueKeys scenarioA).keys = ["ABC-123", "XYZ-9"] := by
  refine ⟨issueKeys_nodup commits, mem_issueKeys commits, ?_, ?_, by decide⟩
  · intro k
    rw [mem_issueKeys]
    constructor
    · rintro ⟨msg, hmsg, hk⟩
      exact ⟨msg, hmsg, (mem_FindAllString msg k).1 hk⟩
    · rintro ⟨msg, hmsg, hk⟩
      exact ⟨msg, hmsg, (mem_FindAllString msg k).2 hk⟩
  · intro commits' hsame
    rw [List.perm_ext_iff_of_nodup (issueKeys_nodup commits') (issueKeys_nodup commits)]
    intro k
    rw [mem_issueKeys, mem_issueKeys]
    constructor
    · rintro ⟨msg, hmsg, hk⟩
      exact ⟨msg, (hsame msg).1 hmsg, hk⟩
    · rintro ⟨msg, hmsg, hk⟩
      exact ⟨msg, (hsame msg).2 hmsg, hk⟩

/-- C2: the pattern is case-sensitive and needs two uppercase letters, a
hyphen and a digit: `ABC-123` is extracted from the message `ABC-123`, and
nothing is extracted from `A-123`, `ABC123`, `ABC-`, `abc-123` or `A-1`. -/
theorem pattern_examples :
    FindAllString re "ABC-123" = ["ABC-123"] ∧
    FindAllString re "A-123" = [] ∧
    FindAllString re "ABC123" = [] ∧
    FindAllString re "ABC-" = [] ∧
    FindAllString re "abc-123" = [] ∧
    FindAllString re "A-1" = [] ∧
    (issueKeys ["ABC-123"]).keys = ["ABC-123"] ∧
    (issueKeys ["A-123"]).keys = [] ∧
    (issueKeys ["ABC123"]).keys = [] ∧
    (issueKeys ["ABC-"]).keys = [] ∧
    (issueKeys ["abc-123"]).keys = [] ∧
    (issueKeys ["A-1"]).keys = [] := by
  decide

/-- C3: when the outward issues are empty (nil or of length zero), the payload
of `buildIssuePayload` has no issue-links entry at all (the field stays nil);
in `main` this is the case whenever no commit message has a match. -/
theorem buildIssuePayload_omits_links (d s t p g : String)
    (outwardIssues : Slice OutwardIssue) (ag : Slice ApproverGroup)
    (env : Env) (order : RangeOrder) (n : Int) (commits : List String)
    (h : outwardIssues.len = 0) (hc : ∀ msg ∈ commits, FindAllString re msg = []) :
    (buildIssuePayload d s t p g outwardIssues ag).Update.IssueLinks = none ∧
    (mainPayload env order n commits).Update.IssueLinks = none := by
  constructor
  · rw [buildIssuePayload_links]
    simp [h]
  · unfold mainPayload
    simp only
    rw [buildIssuePayload_links, issueKeys_eq_nil commits hc, outwardIssuesOf_nil]
    simp [Slice.len]

/-- Witness of C3: an empty non-nil list of outward issues, and scenario B. -/
theorem buildIssuePayload_omits_links_witness :
    Slice.len (some [] : Slice OutwardIssue) = 0 ∧
    (∀ msg ∈ scenarioB, FindAllString re msg = []) ∧
    (buildIssuePayload "d" "s" "t" "p" "7" (some []) (approverGroupsOf "u")).Update.IssueLinks
      = none ∧
    (mainPayload exampleEnv RangeOrder.insertion 7 scenarioB).Update.IssueLinks = none :=
  ⟨by decide, by decide,
    buildIssuePayload_omits_links "d" "s" "t" "p" "7" (some []) (approverGroupsOf "u")
      exampleEnv RangeOrder.insertion 7 scenarioB (by decide) (by decide)⟩

/-- C4: when at least one key is extracted, the payload of `main` has exactly
one issue-links entry, with exactly one value, of type name `Blocks`, whose
outward issues are the extracted keys, each exactly once, in some order. -/
theorem mainPayload_links (env : Env) (order : RangeOrder) (n : Int) (commits : List String)
    (h : (issueKeys commits).keys ≠ []) :
    ∃ out : List OutwardIssue,
      (mainPayload env order n commits).Update.IssueLinks =
        some [{ Add :=
                { Values :=
                    some [{ Type_ := { Name := "Blocks" }, OutwardIssues := some out }] } }] ∧
      (out.map OutwardIssue.Key).Perm (issueKeys commits).keys ∧
      (out.map OutwardIssue.Key).Nodup ∧
      (∀ k, k ∈ out.map OutwardIssue.Key ↔ ∃ msg ∈ commits, k ∈ FindAllString re msg) := by
  have hperm := order.perm (issueKeys commits)
  have hne : order.visit (issueKeys commits) ≠ [] := by
    intro h0
    rw [h0] at hperm
    have := List.Perm.eq_nil hperm.symm
    exact h (by simp [GoMap.keys, this])
  have hkeys : ((order.visit (issueKeys commits)).map fun e => OutwardIssue.mk e.1).map
      OutwardIssue.Key = (order.visit (issueKeys commits)).map Prod.fst := by
    simp [List.map_map, Function.comp_def]
  have hp : ((order.visit (issueKeys commits)).map Prod.fst).Perm (issueKeys commits).keys :=
    List.Perm.map _ hperm
  refine ⟨(order.visit (issueKeys commits)).map fun e => { Key := e.1 }, ?_, ?_, ?_, ?_⟩
  · unfold mainPayload
    simp only
    rw [buildIssuePayload_links, outwardIssuesOf_eq]
    simp [hne, Slice.len, List.length_pos]
  · rw [hkeys]
    exact hp
  · rw [hkeys]
    exact hp.nodup_iff.2 (issueKeys_nodup commits)
  · intro k
    rw [hkeys, hp.mem_iff, mem_issueKeys]

/-- Witness of C4: scenario A, whose outward issues are `ABC-123` and `XYZ-9`. -/
theorem mainPayload_links_witness :
    (issueKeys scenarioA).keys ≠ [] ∧
    (∃ out : List OutwardIssue,
      (mainPayload exampleEnv RangeOrder.reversed 7 scenarioA).Update.IssueLinks =
        some [{ Add :=
                { Values :=
                    some [{ Type_ := { Name := "Blocks" }, OutwardIssues := some out }] } }] ∧
      (out.map OutwardIssue.Key).Perm (issueKeys scenarioA).keys ∧
      (out.map OutwardIssue.Key).Nodup ∧
      (∀ k, k ∈ out.map OutwardIssue.Key ↔ ∃ msg ∈ scenarioA, k ∈ FindAllString re msg)) ∧
    (issueKeys scenarioA).keys = ["ABC-123", "XYZ-9"] :=
  ⟨by decide, mainPayload_links exampleEnv RangeOrder.reversed 7 scenarioA (by decide),
    by decide⟩

/-- C5: for every description text, the empty one included, the description of
the payload is a document of type `doc`, version 1, with exactly one node of
type `paragraph` holding exactly one node of type `text` whose text is the
description. -/
theorem buildIssuePayload_description (d s t p g : String)
    (outwardIssues : Slice OutwardIssue) (ag : Slice ApproverGroup) :
    (buildIssuePayload d s t p g outwardIssues ag).Fields.Description =
      { Type_ := "doc"
        Version := 1
        Content :=
          some [{ Type_ := "paragraph"
                  Content := some [{ Type_ := "text", Text := d }] }] } ∧
    (buildIssuePayload "" s t p g outwardIssues ag).Fields.Description.Content =
      some [{ Type_ := "paragraph", Content := some [{ Type_ := "text", Text := "" }] }] := by
  rw [buildIssuePayload_fields, buildIssuePayload_fields]
  exact ⟨rfl, rfl⟩

/-- C6: the field `customfield_10533` of the payload of `main` is the decimal
form of the pull-request number; `buildIssuePayload` passes its `githubPRID`
argument through unchanged, whatever the other arguments. -/
theorem mainPayload_githubPRID (env : Env) (order : RangeOrder) (n : Int)
    (commits : List String) (d s t p g : String) (outwardIssues : Slice OutwardIssue)
    (ag : Slice ApproverGroup) :
    (mainPayload env order n commits).Fields.GithubPRID = Itoa n ∧
    (buildIssuePayload d s t p g outwardIssues ag).Fields.GithubPRID = g ∧
    Itoa 42 = "42" ∧ Itoa 0 = "0" ∧ Itoa (-7) = "-7" := by
  refine ⟨?_, ?_, by decide, by decide, by decide⟩
  · unfold mainPayload
    simp only
    rw [buildIssuePayload_fields]
  · rw [buildIssuePayload_fields]

/-- C7: `buildIssuePayload` sets the approver groups to the given
specification exactly when it is non-empty, whatever the outward issues; the
payload of `main` always has the one group `Change Management Board`; scenario
B has no issue-links entry and still has the approver group. -/
theorem approverGroups_independent (d s t p g : String)
    (outwardIssues : Slice OutwardIssue) (ag : Slice ApproverGroup)
    (env : Env) (order : RangeOrder) (n : Int) (commits : List String) :
    (buildIssuePayload d s t p g outwardIssues ag).Update.ApproverGroups =
      (if ag.len > 0 then ag else none) ∧
    (mainPayload env order n commits).Update.ApproverGroups =
      some [{ Add :=
              { Name := "Change Management Board"
                GroupID := "5cd2dde1-4263-4b63-8e48-920e1e672e29"
                Self := env.jiraURL ++
                  "rest/api/3/group?groupId=5cd2dde1-4263-4b63-8e48-920e1e672e29" } }] ∧
    (mainPayload env order n scenarioB).Update.IssueLinks = none ∧
    (mainPayload env order n scenarioB).Update.ApproverGroups =
      approverGroupsOf env.jiraURL := by
  have hmain : ∀ cs, (mainPayload env order n cs).Update.ApproverGroups =
      approverGroupsOf env.jiraURL := by
    intro cs
    unfold mainPayload
    simp only
    rw [buildIssuePayload_groups]
    simp [approverGroupsOf, Slice.len]
  refine ⟨buildIssuePayload_groups d s t p g outwardIssues ag, ?_, ?_, hmain scenarioB⟩
  · rw [hmain]
    rfl
  · unfold mainPayload
    simp only
    rw [buildIssuePayload_links, issueKeys_eq_nil scenarioB (by decide), outwardIssuesOf_nil]
    simp [Slice.len]

/-- C8: the `self` field of the approver group of `main` is the base URL,
verbatim, followed by `rest/api/3/group` and by `?groupId=` and the group's
own `groupId`. -/
theorem approverGroup_self_url (env : Env) (order : RangeOrder) (n : Int)
    (commits : List String) :
    ∃ g : ApproverGroup,
      (mainPayload env order n commits).Update.ApproverGroups = some [g] ∧
      g.Add.Self = env.jiraURL ++ "rest/api/3/group" ++ "?groupId=" ++ g.Add.GroupID := by
  refine ⟨_, (approverGroups_groups_eq env order n commits), ?_⟩
  simp only [String.append_assoc]
  rfl

/-- C9: a failed context resolution or commit-list fetch ends the run
fatally, with no payload built and no request sent; once both resolve, the run
ends normally after exactly one request, and it yields a result exactly when
the submission went through with a response that is not in error state: a
transport error or an error response yields none. -/
theorem main_error_handling (env : Env) (ext : Externals) :
    ((∃ e, ext.getPullRequest = .error e) ∨
        (∃ n e, ext.getPullRequest = .ok n ∧ ext.listCommits n = .error e) →
      (main env ext).exit = .fatal ∧ (main env ext).payload = none ∧
        (main env ext).requests = [] ∧ (main env ext).result = none) ∧
    (∀ n commits, ext.getPullRequest = .ok n → ext.listCommits n = .ok commits →
      ((main env ext).exit = .normal ∧
        (main env ext).payload = some (mainPayload env ext.order n commits) ∧
        (main env ext).requests = [mainRequest env (mainPayload env ext.order n commits)]) ∧
      (∀ e, ext.post (mainRequest env (mainPayload env ext.order n commits)) = .error e →
        (main env ext).result = none ∧
          (main env ext).log = ["Failed to create issue: " ++ e]) ∧
      (∀ resp, ext.post (mainRequest env (mainPayload env ext.order n commits)) = .ok resp →
        resp.isErrorState = true →
        (main env ext).result = none ∧
          (main env ext).log = ["Error response: " ++ resp.body]) ∧
      (∀ resp, ext.post (mainRequest env (mainPayload env ext.order n commits)) = .ok resp →
        resp.isErrorState = false →
        (main env ext).result = some resp.result ∧
          (main env ext).log = ["Issue created: " ++ resp.result.Self])) ∧
    ((main env ext).result ≠ none →
      ∃ n commits resp, ext.getPullRequest = .ok n ∧ ext.listCommits n = .ok commits ∧
        ext.post (mainRequest env (mainPayload env ext.order n commits)) = .ok resp ∧
        resp.isErrorState = false ∧ (main env ext).result = some resp.result) := by
  refine ⟨?_, ?_, ?_⟩
  · rintro (⟨e, he⟩ | ⟨n, e, hn, he⟩)
    · simp [main, he]
    · simp [main, hn, he]
  · intro n commits hn hc
    refine ⟨?_, ?_, ?_, ?_⟩
    · simp only [main, hn, hc]
      cases hp : ext.post (mainRequest env (mainPayload env ext.order n commits)) with
      | error e => simp
      | ok resp => cases hr : resp.isErrorState <;> simp [hr]
    · intro e hp
      simp [main, hn, hc, hp]
    · intro resp hp hr
      simp [main, hn, hc, hp, hr]
    · intro resp hp hr
      simp [main, hn, hc, hp, hr]
  · intro hres
    cases hn : ext.getPullRequest with
    | error e => simp [main, hn] at hres
    | ok n =>
      cases hc : ext.listCommits n with
      | error e => simp [main, hn, hc] at hres
      | ok commits =>
        cases hp : ext.post (mainRequest env (mainPayload env ext.order n commits)) with
        | error e => simp [main, hn, hc, hp] at hres
        | ok resp =>
          cases hr : resp.isErrorState with
          | true => simp [main, hn, hc, hp, hr] at hres
          | false =>
            refine ⟨n, commits, resp, rfl, hc, hp, hr, ?_⟩
            simp [main, hn, hc, hp, hr]

/-- Witness of C9: scenario C, an application-level error response. -/
theorem main_error_handling_witness :
    (main exampleEnv scenarioC).exit = .normal ∧
    (main exampleEnv scenarioC).requests.length = 1 ∧
    (main exampleEnv scenarioC).result = none ∧
    (main exampleEnv scenarioC).log = ["Error response: bad request"] := by
  obtain ⟨⟨h1, -, h3⟩, -, h4, -⟩ :=
    (main_error_handling exampleEnv scenarioC).2.1 7 scenarioA rfl rfl
  obtain ⟨h5, h6⟩ := h4 _ rfl rfl
  refine ⟨h1, ?_, h5, ?_⟩
  · rw [h3]
    rfl
  · rw [h6]
    decide

/-- C10: the scan of a message delivers exactly the maximal occurrences of the
pattern, wherever they stand: a pair of indices is delivered if and only if
the text between them is a key that is not right after an uppercase letter and
not right before a digit; no word boundary is needed, and `xABCD-1234y` gives
exactly `ABCD-1234`. -/
theorem allMatches_maximal_occurrence (msg : String) (a b : Nat) :
    ((a, b) ∈ allMatches re 0 0 none msg.data ↔
      ∃ pre key post, msg.data = pre ++ key ++ post ∧ pre.length = a ∧
        a + key.length = b ∧ slice msg.data a b = key ∧ IsIssueKey key ∧
        (∀ c, pre.getLast? = some c → ¬ IsUpperAZ c) ∧
        (∀ c, post.head? = some c → ¬ IsDecDigit c)) ∧
    allMatches re 0 0 none "xABCD-1234y".data = [(1, 10)] ∧
    FindAllString re "xABCD-1234y" = ["ABCD-1234"] := by
  refine ⟨?_, by decide, by decide⟩
  rw [allMatches_re_maximal]
  constructor
  · rintro ⟨pre, key, post, ⟨h, hk, hpre, hpost⟩, ha, hb, hsl⟩
    exact ⟨pre, key, post, h, ha, hb, hsl, hk, hpre, hpost⟩
  · rintro ⟨pre, key, post, h, ha, hb, hsl, hk, hpre, hpost⟩
    exact ⟨pre, key, post, ⟨h, hk, hpre, hpost⟩, ha, hb, hsl⟩

end QuickstartGitHubActions
